import Mathlib

/-!
# Attention from scratch: a shallow embedding

This file embeds the tensor computations of `attention-from-scratch.ipynb`
(versions 1-4: causal averaging by loops, by triangular matrix multiply, by
masked softmax, and a single head of self-attention) as functions over the
real numbers, and proves the properties claimed of them.

A tensor of shape (B, T, C) is a function `Fin B → Fin T → Fin C → ℝ`; the
float arithmetic of the notebook is modelled by exact real arithmetic.  A
`-inf` entry written by `masked_fill` is modelled by `none : Option ℝ`, and
the softmax maps it to weight `0` (`expVal none = 0`), matching how
`exp(-inf) = 0` makes torch's softmax send masked entries to zero.
-/

namespace AttentionScratch

noncomputable section

open Finset

/-- Version 1 (cell 4): `xprev = x[b, :t+1]` followed by
`torch.mean(xprev, dim=0)`: slice the first `t + 1` time steps and average
them over the time dimension, per channel. -/
def xbow1 {B T C : ℕ} (x : Fin B → Fin T → Fin C → ℝ)
    (b : Fin B) (t : Fin T) (c : Fin C) : ℝ :=
  (∑ s : Fin ((t : ℕ) + 1), x b (Fin.castLE t.isLt s) c) / ((t : ℕ) + 1)

/-- The mask `torch.tril(torch.ones(T, T))` used by versions 2, 3 and 4:
ones on and below the diagonal, zeros strictly above it. -/
def tril (T : ℕ) (i j : Fin T) : ℝ :=
  if (j : ℕ) ≤ (i : ℕ) then 1 else 0

/-- Row sums `wei.sum(dim=1, keepdim=True)` of the triangular ones matrix
(cell 8). -/
def trilRowSum (T : ℕ) (i : Fin T) : ℝ :=
  ∑ j, tril T i j

/-- Version 2 weights (cell 8): `wei = wei / wei.sum(dim=1, keepdim=True)`,
each row of the triangular ones matrix divided by its own sum. -/
def wei2 (T : ℕ) (i j : Fin T) : ℝ :=
  tril T i j / trilRowSum T i

/-- Version 2 output (cell 8): `xbow2 = wei @ x`, the (T, T) weight matrix
multiplied against each (T, C) batch slice. -/
def xbow2 {B T C : ℕ} (x : Fin B → Fin T → Fin C → ℝ)
    (b : Fin B) (t : Fin T) (c : Fin C) : ℝ :=
  ∑ s, wei2 T t s * x b s c

/-- Exponential of a possibly masked score: a masked entry (`none`, the
model of float `-inf`) contributes `exp(-inf) = 0`. -/
def expVal : Option ℝ → ℝ
  | none => 0
  | some s => Real.exp s

/-- Row-wise softmax over a row that may contain masked (`-inf`) entries:
each entry's exponential divided by the row sum of exponentials. -/
def softmaxRow {T : ℕ} (row : Fin T → Option ℝ) (j : Fin T) : ℝ :=
  expVal (row j) / ∑ k, expVal (row k)

/-- `wei.masked_fill(tril == 0, float(-inf))` (cells 11 and 14): entries
where the triangular mask is zero become `-inf` (modelled as `none`). -/
def maskedFill {T : ℕ} (w : Fin T → Fin T → ℝ) (i j : Fin T) : Option ℝ :=
  if tril T i j = 0 then none else some (w i j)

/-- Version 3 masked scores (cell 11): a zero matrix whose strict upper
triangle has been filled with `-inf`. -/
def maskedZeros (T : ℕ) (i j : Fin T) : Option ℝ :=
  maskedFill (fun _ _ => (0 : ℝ)) i j

/-- Version 3 weights (cell 11): `torch.softmax` over each row of the masked
zero matrix. -/
def wei3 (T : ℕ) (i j : Fin T) : ℝ :=
  softmaxRow (maskedZeros T i) j

/-- Version 3 output (cell 11): `xbow3 = wei @ x`. -/
def xbow3 {B T C : ℕ} (x : Fin B → Fin T → Fin C → ℝ)
    (b : Fin B) (t : Fin T) (c : Fin C) : ℝ :=
  ∑ s, wei3 T t s * x b s c

/-- `nn.Linear(C, head_size, bias=False)` applied tokenwise (cell 14): the
projection `y[b, t, h] = ∑ c, W[h, c] * x[b, t, c]`. -/
def linearNoBias {B T C H : ℕ} (W : Fin H → Fin C → ℝ)
    (x : Fin B → Fin T → Fin C → ℝ) (b : Fin B) (t : Fin T) (h : Fin H) : ℝ :=
  ∑ c, W h c * x b t c

/-- The unscaled query-key scores `q @ k.transpose(-1, -2)` of cell 14. -/
def rawScores {B T C H : ℕ} (Wq Wk : Fin H → Fin C → ℝ)
    (x : Fin B → Fin T → Fin C → ℝ) (b : Fin B) (i j : Fin T) : ℝ :=
  ∑ h, linearNoBias Wq x b i h * linearNoBias Wk x b j h

/-- Version 4 scores (cell 14): `q @ k.transpose(-1, -2) * head_size**-0.5`,
the raw scores scaled by the inverse square root of the head dimension. -/
def scaledScores {B T C H : ℕ} (Wq Wk : Fin H → Fin C → ℝ)
    (x : Fin B → Fin T → Fin C → ℝ) (b : Fin B) (i j : Fin T) : ℝ :=
  rawScores Wq Wk x b i j * (H : ℝ) ^ (-(1 / 2) : ℝ)

/-- Version 4 attention weights (cell 14): mask the scaled scores with
`masked_fill(tril == 0, -inf)`, then take a row-wise softmax. -/
def wei4 {B T C H : ℕ} (Wq Wk : Fin H → Fin C → ℝ)
    (x : Fin B → Fin T → Fin C → ℝ) (b : Fin B) (i j : Fin T) : ℝ :=
  softmaxRow (maskedFill (scaledScores Wq Wk x b) i) j

/-- Version 4 output (cell 14): `out = wei @ v`. -/
def out4 {B T C H : ℕ} (Wq Wk Wv : Fin H → Fin C → ℝ)
    (x : Fin B → Fin T → Fin C → ℝ) (b : Fin B) (t : Fin T) (h : Fin H) : ℝ :=
  ∑ j, wei4 Wq Wk x b t j * linearNoBias Wv x b j h

/-- The ordering the code does NOT use: softmax the masked *unscaled* scores
first and multiply the resulting weights by `head_size**-0.5` afterwards. -/
def weiScaleAfterSoftmax {B T C H : ℕ} (Wq Wk : Fin H → Fin C → ℝ)
    (x : Fin B → Fin T → Fin C → ℝ) (b : Fin B) (i j : Fin T) : ℝ :=
  softmaxRow (maskedFill (rawScores Wq Wk x b) i) j * (H : ℝ) ^ (-(1 / 2) : ℝ)

/-- Spec-side definition of the causal average: the arithmetic mean of
`x[b, 0], ..., x[b, t]`, written as a masked sum over all of `Fin T`
divided by the number `t + 1` of visible positions. -/
def causalMean {B T C : ℕ} (x : Fin B → Fin T → Fin C → ℝ)
    (b : Fin B) (t : Fin T) (c : Fin C) : ℝ :=
  (∑ s : Fin T, if (s : ℕ) ≤ (t : ℕ) then x b s c else 0) / ((t : ℕ) + 1)

/-! ## Basic facts about the triangular mask -/

lemma tril_eq_one_iff (T : ℕ) (i j : Fin T) :
    tril T i j = 1 ↔ (j : ℕ) ≤ (i : ℕ) := by
  unfold tril
  constructor
  · intro h
    by_contra hc
    rw [if_neg hc] at h
    exact one_ne_zero h.symm
  · intro h
    rw [if_pos h]

lemma tril_eq_zero_iff (T : ℕ) (i j : Fin T) :
    tril T i j = 0 ↔ (i : ℕ) < (j : ℕ) := by
  unfold tril
  constructor
  · intro h
    by_contra hc
    rw [if_pos (by omega : (j : ℕ) ≤ (i : ℕ))] at h
    exact one_ne_zero h
  · intro h
    rw [if_neg (by omega : ¬ (j : ℕ) ≤ (i : ℕ))]

/-- Normal form of `masked_fill`: the entry at `(i, j)` is masked exactly
when `j` lies strictly in the future of `i`. -/
lemma maskedFill_eq {T : ℕ} (w : Fin T → Fin T → ℝ) (i j : Fin T) :
    maskedFill w i j = if (i : ℕ) < (j : ℕ) then none else some (w i j) := by
  unfold maskedFill
  by_cases h : (i : ℕ) < (j : ℕ)
  · rw [if_pos ((tril_eq_zero_iff T i j).mpr h), if_pos h]
  · rw [if_neg (fun hz => h ((tril_eq_zero_iff T i j).mp hz)), if_neg h]

/-! ## Counting lemmas: a row of the mask has `t + 1` visible entries -/

lemma filter_le_range (T : ℕ) (t : Fin T) :
    (Finset.range T).filter (fun j => j ≤ (t : ℕ)) = Finset.range ((t : ℕ) + 1) := by
  ext j
  simp only [Finset.mem_filter, Finset.mem_range, Nat.lt_succ_iff]
  have := t.isLt
  omega

lemma sum_ite_le (T : ℕ) (t : Fin T) (f : Fin T → ℝ) :
    ∑ s : Fin T, (if (s : ℕ) ≤ (t : ℕ) then f s else 0)
      = ∑ s ∈ Finset.range ((t : ℕ) + 1),
          (if h : s < T then f ⟨s, h⟩ else 0) := by
  have h1 : ∀ s : Fin T,
      (if (s : ℕ) ≤ (t : ℕ) then f s else 0)
        = (if h : (s : ℕ) < T then
            (if (s : ℕ) ≤ (t : ℕ) then f ⟨(s : ℕ), h⟩ else 0) else 0) := by
    intro s
    rw [dif_pos s.isLt]
  rw [Finset.sum_congr rfl (fun s _ => h1 s)]
  rw [Fin.sum_univ_eq_sum_range
    (fun s => if h : s < T then (if s ≤ (t : ℕ) then f ⟨s, h⟩ else 0) else 0) T]
  rw [← filter_le_range T t, Finset.sum_filter]
  apply Finset.sum_congr rfl
  intro s hs
  rw [Finset.mem_range] at hs
  by_cases hle : s ≤ (t : ℕ)
  · simp only [dif_pos hs, if_pos hle]
  · simp only [dif_pos hs, if_neg hle]

lemma sum_indicator_le (T : ℕ) (t : Fin T) :
    ∑ s : Fin T, (if (s : ℕ) ≤ (t : ℕ) then (1 : ℝ) else 0) = (t : ℕ) + 1 := by
  rw [sum_ite_le T t (fun _ => (1 : ℝ))]
  have h2 : ∀ s ∈ Finset.range ((t : ℕ) + 1),
      (if h : s < T then (1 : ℝ) else 0) = 1 := by
    intro s hs
    rw [Finset.mem_range] at hs
    have := t.isLt
    rw [dif_pos (by omega)]
  rw [Finset.sum_congr rfl h2, Finset.sum_const, Finset.card_range]
  simp

/-- The slice sum of version 1 agrees with the masked full sum. -/
lemma sum_slice_eq_sum_ite {T : ℕ} (t : Fin T) (f : Fin T → ℝ) :
    ∑ s : Fin ((t : ℕ) + 1), f (Fin.castLE t.isLt s)
      = ∑ s : Fin T, (if (s : ℕ) ≤ (t : ℕ) then f s else 0) := by
  have hcongr : ∀ s : Fin ((t : ℕ) + 1),
      f (Fin.castLE t.isLt s)
        = (if h : (s : ℕ) < T then f ⟨(s : ℕ), h⟩ else 0) := by
    intro s
    have hs : (s : ℕ) < T := by
      have h1 := s.isLt
      have h2 := t.isLt
      omega
    rw [dif_pos hs]
    rfl
  rw [Finset.sum_congr rfl (fun s _ => hcongr s)]
  rw [Fin.sum_univ_eq_sum_range
    (fun s => if h : s < T then f ⟨s, h⟩ else 0) ((t : ℕ) + 1)]
  exact (sum_ite_le T t f).symm

/-! ## Closed forms for the version 2 and version 3 weight matrices -/

lemma trilRowSum_eq (T : ℕ) (t : Fin T) :
    trilRowSum T t = (t : ℕ) + 1 := by
  unfold trilRowSum tril
  exact sum_indicator_le T t

lemma wei2_eq (T : ℕ) (t s : Fin T) :
    wei2 T t s = if (s : ℕ) ≤ (t : ℕ) then (1 : ℝ) / (((t : ℕ) : ℝ) + 1) else 0 := by
  unfold wei2
  rw [trilRowSum_eq]
  unfold tril
  by_cases h : (s : ℕ) ≤ (t : ℕ)
  · rw [if_pos h, if_pos h]
  · rw [if_neg h, if_neg h, zero_div]

lemma maskedZeros_eq (T : ℕ) (t s : Fin T) :
    maskedZeros T t s = if (t : ℕ) < (s : ℕ) then none else some (0 : ℝ) := by
  unfold maskedZeros
  rw [maskedFill_eq]

lemma expVal_maskedZeros (T : ℕ) (t s : Fin T) :
    expVal (maskedZeros T t s) = if (s : ℕ) ≤ (t : ℕ) then 1 else 0 := by
  rw [maskedZeros_eq]
  by_cases h : (t : ℕ) < (s : ℕ)
  · rw [if_pos h, if_neg (by omega)]
    rfl
  · rw [if_neg h, if_pos (by omega)]
    exact Real.exp_zero

lemma wei3_eq (T : ℕ) (t s : Fin T) :
    wei3 T t s = if (s : ℕ) ≤ (t : ℕ) then (1 : ℝ) / (((t : ℕ) : ℝ) + 1) else 0 := by
  unfold wei3 softmaxRow
  rw [Finset.sum_congr rfl (fun k _ => expVal_maskedZeros T t k), sum_indicator_le T t,
    expVal_maskedZeros]
  by_cases h : (s : ℕ) ≤ (t : ℕ)
  · rw [if_pos h, if_pos h]
  · rw [if_neg h, if_neg h, zero_div]

/-! ## General facts about the masked softmax rows -/

lemma expVal_nonneg (o : Option ℝ) : 0 ≤ expVal o := by
  cases o with
  | none => exact le_of_eq rfl
  | some s => exact le_of_lt (Real.exp_pos s)

lemma maskedRowSum_pos {T : ℕ} (w : Fin T → Fin T → ℝ) (i : Fin T) :
    0 < ∑ k, expVal (maskedFill w i k) := by
  apply Finset.sum_pos'
  · intro k _
    exact expVal_nonneg _
  · refine ⟨i, Finset.mem_univ i, ?_⟩
    rw [maskedFill_eq, if_neg (lt_irrefl _)]
    exact Real.exp_pos _

lemma softmaxRow_nonneg {T : ℕ} (row : Fin T → Option ℝ) (j : Fin T) :
    0 ≤ softmaxRow row j :=
  div_nonneg (expVal_nonneg _) (Finset.sum_nonneg fun _ _ => expVal_nonneg _)

lemma maskedSoftmax_sum_one {T : ℕ} (w : Fin T → Fin T → ℝ) (i : Fin T) :
    ∑ j, softmaxRow (maskedFill w i) j = 1 := by
  unfold softmaxRow
  rw [← Finset.sum_div]
  exact div_self (ne_of_gt (maskedRowSum_pos w i))

lemma maskedSoftmax_future_zero {T : ℕ} (w : Fin T → Fin T → ℝ) (i j : Fin T)
    (h : (i : ℕ) < (j : ℕ)) :
    softmaxRow (maskedFill w i) j = 0 := by
  unfold softmaxRow
  rw [maskedFill_eq, if_pos h]
  exact zero_div _

/-- The first row of any masked softmax is the one-hot vector selecting
position 0, whatever the underlying scores. -/
lemma maskedSoftmax_row_zero {T : ℕ} (w : Fin T → Fin T → ℝ) (t : Fin T)
    (ht : (t : ℕ) = 0) (j : Fin T) :
    softmaxRow (maskedFill w t) j = if (j : ℕ) = 0 then 1 else 0 := by
  have hrow : ∀ k : Fin T, expVal (maskedFill w t k)
      = if k = t then Real.exp (w t k) else 0 := by
    intro k
    rw [maskedFill_eq]
    by_cases hk : k = t
    · subst hk
      rw [if_neg (lt_irrefl _), if_pos rfl]
      rfl
    · have hne : (k : ℕ) ≠ (t : ℕ) := fun hh => hk (Fin.ext hh)
      rw [if_pos (by omega), if_neg hk]
      rfl
  unfold softmaxRow
  rw [Finset.sum_congr rfl (fun k _ => hrow k)]
  rw [Finset.sum_ite_eq' Finset.univ t (fun k => Real.exp (w t k))]
  rw [if_pos (Finset.mem_univ t)]
  rw [hrow j]
  by_cases hj : j = t
  · subst hj
    rw [if_pos rfl, if_pos ht]
    exact div_self (Real.exp_ne_zero _)
  · have hne : (j : ℕ) ≠ (t : ℕ) := fun hh => hj (Fin.ext hh)
    rw [if_neg hj, if_neg (by omega), zero_div]

/-! ## Common closed forms of the three averaging versions -/

lemma sum_unifWeight (T : ℕ) (t : Fin T) (g : Fin T → ℝ) (d : ℝ) :
    ∑ s : Fin T, (if (s : ℕ) ≤ (t : ℕ) then (1 : ℝ) / d else 0) * g s
      = (∑ s : Fin T, if (s : ℕ) ≤ (t : ℕ) then g s else 0) / d := by
  rw [Finset.sum_div]
  apply Finset.sum_congr rfl
  intro s _
  by_cases h : (s : ℕ) ≤ (t : ℕ)
  · rw [if_pos h, if_pos h, one_div, inv_mul_eq_div]
  · rw [if_neg h, if_neg h, zero_mul, zero_div]

lemma xbow1_eq {B T C : ℕ} (x : Fin B → Fin T → Fin C → ℝ)
    (b : Fin B) (t : Fin T) (c : Fin C) :
    xbow1 x b t c
      = (∑ s : Fin T, if (s : ℕ) ≤ (t : ℕ) then x b s c else 0)
          / (((t : ℕ) : ℝ) + 1) := by
  unfold xbow1
  rw [sum_slice_eq_sum_ite t (fun s => x b s c)]

lemma xbow2_eq {B T C : ℕ} (x : Fin B → Fin T → Fin C → ℝ)
    (b : Fin B) (t : Fin T) (c : Fin C) :
    xbow2 x b t c
      = (∑ s : Fin T, if (s : ℕ) ≤ (t : ℕ) then x b s c else 0)
          / (((t : ℕ) : ℝ) + 1) := by
  unfold xbow2
  rw [Finset.sum_congr rfl (fun s _ => by rw [wei2_eq])]
  exact sum_unifWeight T t (fun s => x b s c) (((t : ℕ) : ℝ) + 1)

lemma xbow3_eq {B T C : ℕ} (x : Fin B → Fin T → Fin C → ℝ)
    (b : Fin B) (t : Fin T) (c : Fin C) :
    xbow3 x b t c
      = (∑ s : Fin T, if (s : ℕ) ≤ (t : ℕ) then x b s c else 0)
          / (((t : ℕ) : ℝ) + 1) := by
  unfold xbow3
  rw [Finset.sum_congr rfl (fun s _ => by rw [wei3_eq])]
  exact sum_unifWeight T t (fun s => x b s c) (((t : ℕ) : ℝ) + 1)

/-! ## Claim theorems (first group) -/

/-- C1: for every input tensor `x` of shape (B, T, C), the three causal
averaging formulations agree entrywise: the nested-loop version `xbow1`,
the row-normalized triangular matrix-multiply version `xbow2` and the
masked-softmax version `xbow3` are all equal at every batch `b`, time step
`t` and channel `c`. -/
theorem xbow_versions_agree (B T C : ℕ) (x : Fin B → Fin T → Fin C → ℝ)
    (b : Fin B) (t : Fin T) (c : Fin C) :
    xbow1 x b t c = xbow2 x b t c ∧ xbow2 x b t c = xbow3 x b t c := by
  constructor
  · rw [xbow1_eq, xbow2_eq]
  · rw [xbow2_eq, xbow3_eq]

/-- C2: the baseline version 1 computes average pooling over the causal
slice: `xbow1[b, t]` is the channel-wise arithmetic mean of
`x[b, 0], ..., x[b, t]`, inclusive of position `t`; the output has the same
shape (B, T, C) as the input (both are `Fin B → Fin T → Fin C → ℝ`). -/
theorem xbow1_is_causal_mean (B T C : ℕ) (x : Fin B → Fin T → Fin C → ℝ)
    (b : Fin B) (t : Fin T) (c : Fin C) :
    xbow1 x b t c = causalMean x b t c := by
  rw [xbow1_eq]
  rfl

/-- C4: the two normalization recipes coincide: the row-wise softmax of the
zero matrix whose future entries were filled with `-inf` (version 3's
`wei3`) equals the triangular ones matrix divided by its per-row sums
(version 2's `wei2`), and both have entry `1 / (t + 1)` at `(t, s)` for
`s ≤ t` and `0` for `s > t`. -/
theorem softmax_mask_equals_row_normalization (T : ℕ) (t s : Fin T) :
    wei3 T t s = wei2 T t s ∧
      wei3 T t s
        = (if (s : ℕ) ≤ (t : ℕ) then (1 : ℝ) / (((t : ℕ) : ℝ) + 1) else 0) := by
  refine ⟨?_, wei3_eq T t s⟩
  rw [wei3_eq, wei2_eq]

/-- C7: the causal mask `torch.tril(torch.ones(T, T))` has entry 1 at
`(i, j)` exactly when `j ≤ i` (so the diagonal is included and every
position attends to itself) and entry 0 exactly when `j > i`; versions 2, 3
and 4 all build their mask from this same `tril` matrix: version 2 divides
it by its row sums, and versions 3 and 4 mask exactly the entries where it
is zero, i.e. exactly the future positions `j > i`. -/
theorem tril_mask_characterization (T : ℕ) (i j : Fin T) :
    (tril T i j = 1 ↔ (j : ℕ) ≤ (i : ℕ)) ∧
    (tril T i j = 0 ↔ (i : ℕ) < (j : ℕ)) ∧
    tril T i i = 1 ∧
    wei2 T i j = tril T i j / trilRowSum T i ∧
    (∀ w : Fin T → Fin T → ℝ,
      maskedFill w i j = if (i : ℕ) < (j : ℕ) then none else some (w i j)) ∧
    maskedZeros T i j = (if (i : ℕ) < (j : ℕ) then none else some (0 : ℝ)) :=
  ⟨tril_eq_one_iff T i j, tril_eq_zero_iff T i j,
    (tril_eq_one_iff T i i).mpr (le_refl _), rfl,
    fun w => maskedFill_eq w i j, maskedZeros_eq T i j⟩

/-- C9: the version 2 weight matrix assigns equal weight to every visible
position: `wei2[t][s] = 1 / (t + 1)` for `s ≤ t` and `0` for `s > t`, so
all nonzero entries of a row are equal and the aggregation is a uniform
average of the visible positions. -/
theorem wei2_uniform_rows (T : ℕ) (t s : Fin T) :
    wei2 T t s
      = (if (s : ℕ) ≤ (t : ℕ) then (1 : ℝ) / (((t : ℕ) : ℝ) + 1) else 0) :=
  wei2_eq T t s

/-! ## Dependence of the version 4 head on the causal slice only -/

lemma linearNoBias_congr {B T C H : ℕ} (W : Fin H → Fin C → ℝ)
    (x x' : Fin B → Fin T → Fin C → ℝ) (b : Fin B) (s : Fin T)
    (hx : ∀ c, x b s c = x' b s c) (h : Fin H) :
    linearNoBias W x b s h = linearNoBias W x' b s h := by
  unfold linearNoBias
  exact Finset.sum_congr rfl (fun c _ => by rw [hx c])

lemma wei4_congr_past {B T C H : ℕ} (Wq Wk : Fin H → Fin C → ℝ)
    (x x' : Fin B → Fin T → Fin C → ℝ) (b : Fin B) (t : Fin T)
    (hx : ∀ s : Fin T, (s : ℕ) ≤ (t : ℕ) → ∀ c, x b s c = x' b s c)
    (j : Fin T) :
    wei4 Wq Wk x b t j = wei4 Wq Wk x' b t j := by
  have hrow : ∀ k : Fin T, maskedFill (scaledScores Wq Wk x b) t k
      = maskedFill (scaledScores Wq Wk x' b) t k := by
    intro k
    rw [maskedFill_eq, maskedFill_eq]
    by_cases hk : (t : ℕ) < (k : ℕ)
    · rw [if_pos hk, if_pos hk]
    · rw [if_neg hk, if_neg hk]
      have hsc : scaledScores Wq Wk x b t k = scaledScores Wq Wk x' b t k := by
        unfold scaledScores rawScores
        have hq : ∀ h, linearNoBias Wq x b t h = linearNoBias Wq x' b t h :=
          fun h => linearNoBias_congr Wq x x' b t (hx t (le_refl _)) h
        have hk2 : ∀ h, linearNoBias Wk x b k h = linearNoBias Wk x' b k h :=
          fun h => linearNoBias_congr Wk x x' b k (hx k (by omega)) h
        rw [Finset.sum_congr rfl (fun h _ => by rw [hq h, hk2 h])]
      rw [hsc]
  unfold wei4 softmaxRow
  rw [hrow j, Finset.sum_congr rfl (fun k _ => by rw [hrow k])]

/-! ## Claim theorems (second group) -/

/-- C3: the causal mask prevents attending to the future.  After
`masked_fill` with `-inf` and softmax, the weight at `(i, j)` is exactly 0
whenever `j > i`, in version 3 (`wei3`) and in version 4 (`wei4`, for every
projection weight and every batch element); consequently two inputs that
agree on positions `0..t` of batch `b` (with the same query/key/value
weights) give identical attention outputs at `out[b, t]`. -/
theorem causal_mask_no_future :
    (∀ (T : ℕ) (i j : Fin T), (i : ℕ) < (j : ℕ) → wei3 T i j = 0) ∧
    (∀ (B T C H : ℕ) (Wq Wk : Fin H → Fin C → ℝ)
      (x : Fin B → Fin T → Fin C → ℝ) (b : Fin B) (i j : Fin T),
      (i : ℕ) < (j : ℕ) → wei4 Wq Wk x b i j = 0) ∧
    (∀ (B T C H : ℕ) (Wq Wk Wv : Fin H → Fin C → ℝ)
      (x x' : Fin B → Fin T → Fin C → ℝ) (b : Fin B) (t : Fin T),
      (∀ s : Fin T, (s : ℕ) ≤ (t : ℕ) → ∀ c, x b s c = x' b s c) →
      ∀ h : Fin H, out4 Wq Wk Wv x b t h = out4 Wq Wk Wv x' b t h) := by
  refine ⟨?_, ?_, ?_⟩
  · intro T i j hij
    exact maskedSoftmax_future_zero (fun _ _ => (0 : ℝ)) i j hij
  · intro B T C H Wq Wk x b i j hij
    exact maskedSoftmax_future_zero (scaledScores Wq Wk x b) i j hij
  · intro B T C H Wq Wk Wv x x' b t hx h
    unfold out4
    apply Finset.sum_congr rfl
    intro j _
    by_cases hj : (j : ℕ) ≤ (t : ℕ)
    · rw [wei4_congr_past Wq Wk x x' b t hx j,
        linearNoBias_congr Wv x x' b j (hx j hj) h]
    · have h1 : wei4 Wq Wk x b t j = 0 :=
        maskedSoftmax_future_zero (scaledScores Wq Wk x b) t j (by omega)
      have h2 : wei4 Wq Wk x' b t j = 0 :=
        maskedSoftmax_future_zero (scaledScores Wq Wk x' b) t j (by omega)
      rw [h1, h2, zero_mul, zero_mul]

/-- Witness for C3 at concrete inputs: with T = 2, the masked weight above
the diagonal vanishes, and two inputs agreeing at position 0 give the same
attention output at time step 0, although they differ at position 1. -/
theorem causal_mask_no_future_witness :
    wei3 2 (0 : Fin 2) (1 : Fin 2) = 0 ∧
    out4 (fun (_ : Fin 1) (_ : Fin 1) => (1 : ℝ)) (fun _ _ => (1 : ℝ))
        (fun _ _ => (1 : ℝ))
        (fun (_ : Fin 1) (_ : Fin 2) (_ : Fin 1) => (0 : ℝ))
        (0 : Fin 1) (0 : Fin 2) (0 : Fin 1)
      = out4 (fun (_ : Fin 1) (_ : Fin 1) => (1 : ℝ)) (fun _ _ => (1 : ℝ))
          (fun _ _ => (1 : ℝ))
          (fun (_ : Fin 1) (s : Fin 2) (_ : Fin 1) =>
            if (s : ℕ) = 0 then (0 : ℝ) else 5)
          (0 : Fin 1) (0 : Fin 2) (0 : Fin 1) := by
  constructor
  · exact causal_mask_no_future.1 2 (0 : Fin 2) (1 : Fin 2) (by decide)
  · refine causal_mask_no_future.2.2 1 2 1 1 _ _ _ _ _ (0 : Fin 1) (0 : Fin 2)
      ?_ (0 : Fin 1)
    intro s hs c
    fin_cases s
    · simp
    · simp at hs

/-- C5: every softmax row is a probability distribution.  For version 3 and
for version 4 (every batch element, every projection weight and input),
each entry of the weight row is nonnegative, the row sums to one, and the
masked (future) entries are zero, contributing nothing to that sum. -/
theorem softmax_rows_are_distributions :
    (∀ (T : ℕ) (t : Fin T),
      (∀ j : Fin T, 0 ≤ wei3 T t j) ∧ (∑ j, wei3 T t j = 1) ∧
      (∀ j : Fin T, (t : ℕ) < (j : ℕ) → wei3 T t j = 0)) ∧
    (∀ (B T C H : ℕ) (Wq Wk : Fin H → Fin C → ℝ)
      (x : Fin B → Fin T → Fin C → ℝ) (b : Fin B) (i : Fin T),
      (∀ j : Fin T, 0 ≤ wei4 Wq Wk x b i j) ∧ (∑ j, wei4 Wq Wk x b i j = 1) ∧
      (∀ j : Fin T, (i : ℕ) < (j : ℕ) → wei4 Wq Wk x b i j = 0)) := by
  constructor
  · intro T t
    exact ⟨fun j => softmaxRow_nonneg _ j,
      maskedSoftmax_sum_one (fun _ _ => (0 : ℝ)) t,
      fun j hj => maskedSoftmax_future_zero (fun _ _ => (0 : ℝ)) t j hj⟩
  · intro B T C H Wq Wk x b i
    exact ⟨fun j => softmaxRow_nonneg _ j,
      maskedSoftmax_sum_one (scaledScores Wq Wk x b) i,
      fun j hj => maskedSoftmax_future_zero (scaledScores Wq Wk x b) i j hj⟩

/-- Witness for C5 at concrete inputs: with T = 2, the masked entries above
the diagonal of row 0 vanish in versions 3 and 4, and row 0 of version 3
sums to one. -/
theorem softmax_rows_are_distributions_witness :
    wei3 2 (0 : Fin 2) (1 : Fin 2) = 0 ∧
    (∑ j, wei3 2 (0 : Fin 2) j = 1) ∧
    wei4 (fun (_ : Fin 1) (_ : Fin 1) => (1 : ℝ)) (fun _ _ => (1 : ℝ))
        (fun (_ : Fin 1) (_ : Fin 2) (_ : Fin 1) => (0 : ℝ))
        (0 : Fin 1) (0 : Fin 2) (1 : Fin 2) = 0 :=
  ⟨(softmax_rows_are_distributions.1 2 (0 : Fin 2)).2.2 (1 : Fin 2) (by decide),
    (softmax_rows_are_distributions.1 2 (0 : Fin 2)).2.1,
    (softmax_rows_are_distributions.2 1 2 1 1 _ _ _ (0 : Fin 1)
      (0 : Fin 2)).2.2 (1 : Fin 2) (by decide)⟩

/-! ## Row 0 of the attention head, and the scaling order -/

lemma wei4_row_zero {B T C H : ℕ} (Wq Wk : Fin H → Fin C → ℝ)
    (x : Fin B → Fin T → Fin C → ℝ) (b : Fin B) (t j : Fin T)
    (ht : (t : ℕ) = 0) :
    wei4 Wq Wk x b t j = if (j : ℕ) = 0 then 1 else 0 :=
  maskedSoftmax_row_zero (scaledScores Wq Wk x b) t ht j

lemma weiScaleAfterSoftmax_row_zero {B T C H : ℕ} (Wq Wk : Fin H → Fin C → ℝ)
    (x : Fin B → Fin T → Fin C → ℝ) (b : Fin B) (t j : Fin T)
    (ht : (t : ℕ) = 0) :
    weiScaleAfterSoftmax Wq Wk x b t j
      = (if (j : ℕ) = 0 then 1 else 0) * (H : ℝ) ^ (-(1 / 2) : ℝ) := by
  unfold weiScaleAfterSoftmax
  rw [maskedSoftmax_row_zero (rawScores Wq Wk x b) t ht j]

lemma sum_ite_le_zero {T : ℕ} (t : Fin T) (ht : (t : ℕ) = 0) (f : Fin T → ℝ) :
    ∑ s : Fin T, (if (s : ℕ) ≤ (t : ℕ) then f s else 0) = f t := by
  have h1 : ∀ s : Fin T,
      (if (s : ℕ) ≤ (t : ℕ) then f s else 0) = (if s = t then f s else 0) := by
    intro s
    by_cases hs : s = t
    · subst hs
      rw [if_pos (le_refl _), if_pos rfl]
    · have hne : (s : ℕ) ≠ (t : ℕ) := fun hh => hs (Fin.ext hh)
      rw [if_neg (by omega), if_neg hs]
  rw [Finset.sum_congr rfl (fun s _ => h1 s)]
  rw [Finset.sum_ite_eq' Finset.univ t f, if_pos (Finset.mem_univ t)]

lemma sum_onehot {T : ℕ} (t : Fin T) (g : Fin T → ℝ) :
    ∑ j : Fin T, (if j = t then (1 : ℝ) else 0) * g j = g t := by
  have h1 : ∀ j : Fin T,
      (if j = t then (1 : ℝ) else 0) * g j = (if j = t then g j else 0) := by
    intro j
    by_cases hj : j = t
    · rw [if_pos hj, if_pos hj, one_mul]
    · rw [if_neg hj, if_neg hj, zero_mul]
  rw [Finset.sum_congr rfl (fun j _ => h1 j)]
  rw [Finset.sum_ite_eq' Finset.univ t g, if_pos (Finset.mem_univ t)]

/-! ## Claim theorems (third group) -/

/-- C6: in the self-attention head the scaling is applied before masking:
the scores that get masked are `q @ kᵀ * head_size^(-1/2)`, so the computed
weights are `softmax(mask(q @ kᵀ * head_size^(-1/2)))`; and this is not the
same function as scaling after the softmax — at a concrete instance with
`head_size = 16` the two orderings produce different weights. -/
theorem scaling_applied_before_masking :
    (∀ (B T C H : ℕ) (Wq Wk : Fin H → Fin C → ℝ)
      (x : Fin B → Fin T → Fin C → ℝ) (b : Fin B) (i j : Fin T),
      scaledScores Wq Wk x b i j
          = rawScores Wq Wk x b i j * (H : ℝ) ^ (-(1 / 2) : ℝ) ∧
        wei4 Wq Wk x b i j
          = softmaxRow (maskedFill (scaledScores Wq Wk x b) i) j) ∧
    wei4 (fun (_ : Fin 16) (_ : Fin 1) => (0 : ℝ)) (fun _ _ => (0 : ℝ))
        (fun (_ : Fin 1) (_ : Fin 1) (_ : Fin 1) => (0 : ℝ))
        (0 : Fin 1) (0 : Fin 1) (0 : Fin 1)
      ≠ weiScaleAfterSoftmax (fun (_ : Fin 16) (_ : Fin 1) => (0 : ℝ))
          (fun _ _ => (0 : ℝ)) (fun (_ : Fin 1) (_ : Fin 1) (_ : Fin 1) => (0 : ℝ))
          (0 : Fin 1) (0 : Fin 1) (0 : Fin 1) := by
  constructor
  · intro B T C H Wq Wk x b i j
    exact ⟨rfl, rfl⟩
  · rw [wei4_row_zero _ _ _ _ _ _ (by decide),
      weiScaleAfterSoftmax_row_zero _ _ _ _ _ _ (by decide)]
    rw [if_pos (by decide), one_mul]
    have hlt : ((16 : ℕ) : ℝ) ^ (-(1 / 2) : ℝ) < 1 :=
      Real.rpow_lt_one_of_one_lt_of_neg (by norm_num) (by norm_num)
    exact Ne.symm (ne_of_lt hlt)

/-- C8: every computed tensor is a pure function of its inputs: equal input
tensors and equal projection weights give equal `xbow1`, `xbow2`, `xbow3`,
`wei4` and `out4`, so two executions that sample the same `x`, `Wq`, `Wk`,
`Wv` (as a fixed seed makes them do) produce identical outputs. -/
theorem outputs_deterministic (B T C H : ℕ)
    (Wq Wk Wv Wq' Wk' Wv' : Fin H → Fin C → ℝ)
    (x x' : Fin B → Fin T → Fin C → ℝ)
    (hx : x = x') (hq : Wq = Wq') (hk : Wk = Wk') (hv : Wv = Wv') :
    xbow1 x = xbow1 x' ∧ xbow2 x = xbow2 x' ∧ xbow3 x = xbow3 x' ∧
      wei4 Wq Wk x = wei4 Wq' Wk' x' ∧
      out4 Wq Wk Wv x = out4 Wq' Wk' Wv' x' := by
  subst hx hq hk hv
  exact ⟨rfl, rfl, rfl, rfl, rfl⟩

/-- Witness for C8: the determinism theorem applied at a concrete input. -/
theorem outputs_deterministic_witness :
    xbow1 (fun (_ : Fin 1) (_ : Fin 1) (_ : Fin 1) => (0 : ℝ))
        = xbow1 (fun (_ : Fin 1) (_ : Fin 1) (_ : Fin 1) => (0 : ℝ)) ∧
    xbow2 (fun (_ : Fin 1) (_ : Fin 1) (_ : Fin 1) => (0 : ℝ))
        = xbow2 (fun (_ : Fin 1) (_ : Fin 1) (_ : Fin 1) => (0 : ℝ)) ∧
    xbow3 (fun (_ : Fin 1) (_ : Fin 1) (_ : Fin 1) => (0 : ℝ))
        = xbow3 (fun (_ : Fin 1) (_ : Fin 1) (_ : Fin 1) => (0 : ℝ)) ∧
    wei4 (fun (_ : Fin 1) (_ : Fin 1) => (0 : ℝ)) (fun _ _ => (0 : ℝ))
        (fun (_ : Fin 1) (_ : Fin 1) (_ : Fin 1) => (0 : ℝ))
        = wei4 (fun (_ : Fin 1) (_ : Fin 1) => (0 : ℝ)) (fun _ _ => (0 : ℝ))
            (fun (_ : Fin 1) (_ : Fin 1) (_ : Fin 1) => (0 : ℝ)) ∧
    out4 (fun (_ : Fin 1) (_ : Fin 1) => (0 : ℝ)) (fun _ _ => (0 : ℝ))
        (fun _ _ => (0 : ℝ)) (fun (_ : Fin 1) (_ : Fin 1) (_ : Fin 1) => (0 : ℝ))
        = out4 (fun (_ : Fin 1) (_ : Fin 1) => (0 : ℝ)) (fun _ _ => (0 : ℝ))
            (fun _ _ => (0 : ℝ))
            (fun (_ : Fin 1) (_ : Fin 1) (_ : Fin 1) => (0 : ℝ)) :=
  outputs_deterministic 1 1 1 1
    (fun _ _ => (0 : ℝ)) (fun _ _ => (0 : ℝ)) (fun _ _ => (0 : ℝ))
    (fun _ _ => (0 : ℝ)) (fun _ _ => (0 : ℝ)) (fun _ _ => (0 : ℝ))
    (fun _ _ _ => (0 : ℝ)) (fun _ _ _ => (0 : ℝ)) rfl rfl rfl rfl

/-- C10: the first time step reproduces its input: `xbow[b, 0] = x[b, 0]`
in versions 1-3, and in version 4 the first row of attention weights is the
one-hot vector selecting position 0 (whatever the query-key scores), so
`out[b, 0] = v[b, 0]`. -/
theorem first_position_reproduces_input :
    (∀ (B T C : ℕ) (x : Fin B → Fin T → Fin C → ℝ) (b : Fin B) (t : Fin T)
      (c : Fin C), (t : ℕ) = 0 →
      xbow1 x b t c = x b t c ∧ xbow2 x b t c = x b t c ∧
        xbow3 x b t c = x b t c) ∧
    (∀ (B T C H : ℕ) (Wq Wk Wv : Fin H → Fin C → ℝ)
      (x : Fin B → Fin T → Fin C → ℝ) (b : Fin B) (t : Fin T),
      (t : ℕ) = 0 →
      (∀ j : Fin T, wei4 Wq Wk x b t j = if (j : ℕ) = 0 then 1 else 0) ∧
      (∀ h : Fin H, out4 Wq Wk Wv x b t h = linearNoBias Wv x b t h)) := by
  constructor
  · intro B T C x b t c ht
    refine ⟨?_, ?_, ?_⟩
    · rw [xbow1_eq, sum_ite_le_zero t ht (fun s => x b s c), ht]
      norm_num
    · rw [xbow2_eq, sum_ite_le_zero t ht (fun s => x b s c), ht]
      norm_num
    · rw [xbow3_eq, sum_ite_le_zero t ht (fun s => x b s c), ht]
      norm_num
  · intro B T C H Wq Wk Wv x b t ht
    constructor
    · intro j
      exact wei4_row_zero Wq Wk x b t j ht
    · intro h
      unfold out4
      have h1 : ∀ j : Fin T, wei4 Wq Wk x b t j * linearNoBias Wv x b j h
          = (if j = t then (1 : ℝ) else 0) * linearNoBias Wv x b j h := by
        intro j
        rw [wei4_row_zero Wq Wk x b t j ht]
        by_cases hj : j = t
        · subst hj
          rw [if_pos ht, if_pos rfl]
        · have hne : (j : ℕ) ≠ (t : ℕ) := fun hh => hj (Fin.ext hh)
          rw [if_neg (by omega), if_neg hj]
      rw [Finset.sum_congr rfl (fun j _ => h1 j)]
      exact sum_onehot t (fun j => linearNoBias Wv x b j h)

/-- Witness for C10: with T = 2 and a constant input, the first output
position of version 1 reproduces the input value, and the version 4 output
at the first position equals the value projection there. -/
theorem first_position_reproduces_input_witness :
    xbow1 (fun (_ : Fin 1) (_ : Fin 2) (_ : Fin 1) => (3 : ℝ))
        (0 : Fin 1) (0 : Fin 2) (0 : Fin 1) = (3 : ℝ) ∧
    out4 (fun (_ : Fin 1) (_ : Fin 1) => (1 : ℝ)) (fun _ _ => (1 : ℝ))
        (fun _ _ => (1 : ℝ)) (fun (_ : Fin 1) (_ : Fin 2) (_ : Fin 1) => (3 : ℝ))
        (0 : Fin 1) (0 : Fin 2) (0 : Fin 1)
      = linearNoBias (fun (_ : Fin 1) (_ : Fin 1) => (1 : ℝ))
          (fun (_ : Fin 1) (_ : Fin 2) (_ : Fin 1) => (3 : ℝ))
          (0 : Fin 1) (0 : Fin 2) (0 : Fin 1) :=
  ⟨(first_position_reproduces_input.1 1 2 1
      (fun _ _ _ => (3 : ℝ)) (0 : Fin 1) (0 : Fin 2) (0 : Fin 1) (by decide)).1,
    (first_position_reproduces_input.2 1 2 1 1 _ _ _ _ (0 : Fin 1) (0 : Fin 2)
      (by decide)).2 (0 : Fin 1)⟩

end

end AttentionScratch
